import Mathlib

/-!
A verification of the small graph library `graphs.py`: an adjacency-mapping
representation (Python `defaultdict(list)`) shared by an undirected and a
directed variant, with traversal, degree and connectivity queries.

The Python dictionary is modelled as an insertion-ordered association list
`Adj α = List (α × List α)`; `defaultdict` auto-vivification is made explicit
at every access site.  CPython's `set.pop` order on a two-element set is a
function of the set's contents (it is determined by the element hashes, not by
the insertion order of the pair); it is modelled here through the linear order
on `α`, the smaller element being popped first.  Failing calls (`min`/`max` of
an empty sequence raising `ValueError`) are modelled with `Option`, `none`
standing for the raised error, and the `None` no-path signal of
`depth_first_search` is `none`.
-/

namespace Graphs

/-- The `self._graph` mapping: an insertion-ordered association list from a
node to its adjacency list. -/
abbrev Adj (α : Type) : Type := List (α × List α)

variable {α : Type} [DecidableEq α]

/-- First-occurrence lookup in the adjacency mapping; `[]` for an absent key
(the value that `defaultdict(list)` would create on access). -/
def getAdj : Adj α → α → List α
  | [], _ => []
  | (k, v) :: rest, n => if k = n then v else getAdj rest n

/-- Python's `node in self._graph` membership test (no auto-vivification). -/
def hasKey : Adj α → α → Bool
  | [], _ => false
  | (k, _) :: rest, n => decide (k = n) || hasKey rest n

/-- The key list of the mapping, in insertion order (`list(self._graph)`). -/
def keys (g : Adj α) : List α := g.map Prod.fst

/-- `len(self._graph)`: the number of nodes (`Graph.__len__`). -/
def node_count (g : Adj α) : Nat := g.length

/-- The `nodes` property. -/
def nodes (g : Adj α) : List α := keys g

/-- `self._graph[n].append(x)`: append `x` to the adjacency list of key `n`,
creating the key with a fresh list first when it is absent (`defaultdict`). -/
def appendAdj : Adj α → α → α → Adj α
  | [], n, x => [(n, [x])]
  | (k, v) :: rest, n, x =>
      if k = n then (k, v ++ [x]) :: rest else (k, v) :: appendAdj rest n x

/-- `Graph.add_node`: evaluating `self._graph[node]` registers the key and
otherwise leaves the mapping unchanged. -/
def add_node (g : Adj α) (n : α) : Adj α :=
  if hasKey g n then g else g ++ [(n, [])]

/-- The inner loop of `isolated_nodes`: does `n` occur in some node's
adjacency list? -/
def appearsAsTarget (g : Adj α) (n : α) : Bool :=
  g.any (fun q => decide (n ∈ q.2))

/-- `Graph.isolated_nodes`: the keys whose adjacency list is empty and that
occur in no adjacency list, in insertion order. -/
def isolated_nodes (g : Adj α) : List α :=
  (g.filter (fun p => decide (p.2 = []) && !appearsAsTarget g p.1)).map Prod.fst

/-- `Graph.node_degree`:
`len(self._graph[node]) + self._graph[node].count(node)`. -/
def node_degree (g : Adj α) (n : α) : Nat :=
  (getAdj g n).length + (getAdj g n).count n

/-- `Graph.delta`: `min(map(self.node_degree, self._graph))`; `none` models
the `ValueError` raised on an empty graph. -/
def delta (g : Adj α) : Option Nat := ((keys g).map (node_degree g)).min?

/-- `min_degree = delta` (class-body alias). -/
def min_degree (g : Adj α) : Option Nat := delta g

/-- `Graph.Delta`: `max(map(self.node_degree, self._graph))`. -/
def Delta (g : Adj α) : Option Nat := ((keys g).map (node_degree g)).max?

/-- `max_degree = Delta` (class-body alias). -/
def max_degree (g : Adj α) : Option Nat := Delta g

/-- `Graph.is_connected`: `len(self.isolated_nodes()) == 0`. -/
def is_connected (g : Adj α) : Bool := decide ((isolated_nodes g).length = 0)

theorem hasKey_iff_mem_keys (g : Adj α) (n : α) :
    hasKey g n = true ↔ n ∈ keys g := by
  induction g with
  | nil => simp [hasKey, keys]
  | cons p rest ih =>
      obtain ⟨k, v⟩ := p
      simp only [hasKey, Bool.or_eq_true, decide_eq_true_eq, keys,
        List.map_cons, List.mem_cons, ih]
      constructor
      · rintro (h | h)
        · exact Or.inl h.symm
        · exact Or.inr h
      · rintro (h | h)
        · exact Or.inl h.symm
        · exact Or.inr h

theorem length_filter_mono (p q : α → Bool) (l : List α)
    (h : ∀ a, p a = true → q a = true) :
    (l.filter p).length ≤ (l.filter q).length := by
  induction l with
  | nil => simp
  | cons a t ih =>
      by_cases hp : p a = true
      · rw [List.filter_cons_of_pos hp, List.filter_cons_of_pos (h a hp)]
        simpa using ih
      · rw [List.filter_cons_of_neg (by simpa using hp)]
        cases hq : q a
        · rw [List.filter_cons_of_neg (by simp [hq])]
          exact ih
        · rw [List.filter_cons_of_pos hq]
          exact Nat.le_succ_of_le ih

theorem filter_notmem_snoc_of_mem (ks path : List α) (s : α) (hs : s ∈ path) :
    ks.filter (fun k => decide (k ∉ path ++ [s]))
      = ks.filter (fun k => decide (k ∉ path)) := by
  apply List.filter_congr
  intro k _
  simp only [decide_eq_decide, List.mem_append, List.mem_singleton]
  constructor
  · intro h hk
    exact h (Or.inl hk)
  · rintro h (hk | rfl)
    · exact h hk
    · exact h hs

theorem filter_length_lt_of_snoc (ks path : List α) (s : α)
    (hks : s ∈ ks) (hsp : s ∉ path) :
    (ks.filter (fun k => decide (k ∉ path ++ [s]))).length
      < (ks.filter (fun k => decide (k ∉ path))).length := by
  induction ks with
  | nil => cases hks
  | cons a t ih =>
      by_cases has : a = s
      · subst has
        rw [List.filter_cons_of_neg (by simp), List.filter_cons_of_pos (by simpa using hsp)]
        have hle := length_filter_mono (fun k => decide (k ∉ path ++ [a]))
          (fun k => decide (k ∉ path)) t
          (by
            intro b hb
            simp only [decide_eq_true_eq] at hb ⊢
            intro hmem
            exact hb (List.mem_append_left _ hmem))
        simpa using Nat.lt_succ_of_le hle
      · have hst : s ∈ t := by
          rcases List.mem_cons.mp hks with h | h
          · exact absurd h.symm has
          · exact h
        have hpred : (decide (a ∉ path ++ [s])) = (decide (a ∉ path)) := by
          simp only [decide_eq_decide, List.mem_append, List.mem_singleton]
          constructor
          · intro h hk
            exact h (Or.inl hk)
          · rintro h (hk | rfl)
            · exact h hk
            · exact absurd rfl has
        cases hcase : decide (a ∉ path)
        · simp only [List.filter_cons, hpred, hcase]
          simpa using ih hst
        · simp only [List.filter_cons, hpred, hcase]
          simpa using ih hst

theorem dfs_measure_lt (ks path : List α) (s n : α)
    (hs : s ∈ ks) (hn : n ∉ path ++ [s]) :
    2 * ((ks.filter (fun k => decide (k ∉ path ++ [s]))).length)
        + (if n ∈ path ++ [s] then 2 else 1)
      < 2 * ((ks.filter (fun k => decide (k ∉ path))).length)
        + (if s ∈ path then 2 else 1) := by
  rw [if_neg hn]
  by_cases hsp : s ∈ path
  · rw [filter_notmem_snoc_of_mem ks path s hsp, if_pos hsp]
    omega
  · rw [if_neg hsp]
    have := filter_length_lt_of_snoc ks path s hs hsp
    omega

/-- `Graph.depth_first_search`, translated clause by clause: the mutable
`path` list is passed explicitly (the method's `path=None` default is the
`[]` of the callers below), the implicit `return None` of the exhausted
`for` loop is the `none` branches. -/
def depth_first_search (g : Adj α) (start_node end_node : α) (path : List α) :
    Option (List α) :=
  if start_node = end_node then some (path ++ [start_node])
  else if h : hasKey g start_node = true then
    match hf : (getAdj g start_node).find?
        (fun n => decide (n ∉ path ++ [start_node])) with
    | some n => depth_first_search g n end_node (path ++ [start_node])
    | none => none
  else none
termination_by
  2 * (((keys g).filter (fun k => decide (k ∉ path))).length)
    + (if start_node ∈ path then 2 else 1)
decreasing_by
  have h1 := List.find?_some hf
  simp only [decide_eq_true_eq] at h1
  have hs : start_node ∈ keys g := (hasKey_iff_mem_keys g start_node).mp h
  exact dfs_measure_lt (keys g) path start_node n hs h1

/-- `Graph.distance`: the edge count of the found path, `-1` when the search
returns the no-path signal. -/
def distance (g : Adj α) (s e : α) : Int :=
  match depth_first_search g s e [] with
  | none => -1
  | some p => (p.length : Int) - 1

/-- `itertools.combinations(iterable, 2)`, in iteration order. -/
def combinations2 : List α → List (α × α)
  | [] => []
  | x :: xs => (xs.map (fun y => (x, y))) ++ combinations2 xs

/-- `Graph.diameter`: `max(starmap(self.distance, combinations(self._graph, 2)))`;
`none` models the `ValueError` raised with fewer than two nodes. -/
def diameter (g : Adj α) : Option Int :=
  ((combinations2 (keys g)).map (fun p => distance g p.1 p.2)).max?

/-- `UndirectedGraph.add_edge`: the pair is collapsed through `set(edge)`;
a singleton set (self-loop) appends the node to its own list once, otherwise
the first popped element gains the second and conversely.  The pop order is
a function of the set's contents, modelled by `min`-first. -/
def UndirectedGraph.add_edge [LinearOrder α] (g : Adj α) (e : α × α) : Adj α :=
  if e.1 = e.2 then
    appendAdj g e.1 e.1
  else
    appendAdj (appendAdj g (min e.1 e.2) (max e.1 e.2)) (max e.1 e.2) (min e.1 e.2)

/-- `UndirectedGraph(edges)`: `Graph.__init__` folds `add_edge` over the
edge sequence, starting from the empty mapping. -/
def UndirectedGraph.ofEdges [LinearOrder α] (es : List (α × α)) : Adj α :=
  es.foldl UndirectedGraph.add_edge []

/-- `DirectedGraph.add_edge`: `self.add_node(edge[1])` then
`self._graph[edge[0]].append(edge[1])`. -/
def DirectedGraph.add_edge (g : Adj α) (e : α × α) : Adj α :=
  appendAdj (add_node g e.2) e.1 e.2

/-- `DirectedGraph(edges)`. -/
def DirectedGraph.ofEdges (es : List (α × α)) : Adj α :=
  es.foldl DirectedGraph.add_edge []

/-- Fuel-indexed variant of the search, used to bound the recursion depth:
`none` means the fuel ran out before the source recursion finished, `some r`
that the recursion finishes with result `r` within the given depth. -/
def depth_first_searchF (g : Adj α) : Nat → α → α → List α → Option (Option (List α))
  | 0, _, _, _ => none
  | fuel + 1, s, e, path =>
    if s = e then some (some (path ++ [s]))
    else if hasKey g s = true then
      match (getAdj g s).find? (fun n => decide (n ∉ path ++ [s])) with
      | some n => depth_first_searchF g fuel n e (path ++ [s])
      | none => some none
    else some none

theorem depth_first_search_stop (g : Adj α) (s e : α) (path : List α)
    (h : s = e) : depth_first_search g s e path = some (path ++ [s]) := by
  rw [depth_first_search]
  simp [h]

theorem depth_first_search_absent (g : Adj α) (s e : α) (path : List α)
    (h1 : s ≠ e) (h2 : hasKey g s = false) :
    depth_first_search g s e path = none := by
  rw [depth_first_search]
  simp [h1, h2]

theorem depth_first_search_step (g : Adj α) (s e : α) (path : List α)
    (h1 : s ≠ e) (h2 : hasKey g s = true) :
    depth_first_search g s e path
      = match (getAdj g s).find? (fun n => decide (n ∉ path ++ [s])) with
        | some n => depth_first_search g n e (path ++ [s])
        | none => none := by
  rw [depth_first_search]
  rw [if_neg h1, dif_pos h2]
  cases h3 : (getAdj g s).find? (fun n => decide (n ∉ path ++ [s])) <;> rfl

theorem depth_first_searchF_complete (g : Adj α) (e : α) :
    ∀ (fuel : Nat) (s : α) (path : List α), s ∉ path →
      ((keys g).filter (fun k => decide (k ∉ path))).length + 1 ≤ fuel →
      depth_first_searchF g fuel s e path
        = some (depth_first_search g s e path) := by
  intro fuel
  induction fuel with
  | zero => intro s path _ hb; omega
  | succ fuel ih =>
      intro s path hsp hb
      by_cases hse : s = e
      · rw [depth_first_search_stop g s e path hse]
        simp [depth_first_searchF, hse]
      · cases hk : hasKey g s with
        | false =>
            rw [depth_first_search_absent g s e path hse hk]
            simp [depth_first_searchF, hse, hk]
        | true =>
            have hstep : depth_first_searchF g (fuel + 1) s e path
                = match (getAdj g s).find? (fun n => decide (n ∉ path ++ [s])) with
                  | some n => depth_first_searchF g fuel n e (path ++ [s])
                  | none => some none := by
              simp only [depth_first_searchF]
              rw [if_neg hse, if_pos hk]
            rw [depth_first_search_step g s e path hse hk, hstep]
            cases hf : (getAdj g s).find? (fun n => decide (n ∉ path ++ [s])) with
            | none => rfl
            | some n =>
                have hn : n ∉ path ++ [s] := by
                  have h1 := List.find?_some hf
                  simpa using h1
                have hs : s ∈ keys g := (hasKey_iff_mem_keys g s).mp hk
                have hlt := filter_length_lt_of_snoc (keys g) path s hs hsp
                exact ih n (path ++ [s]) hn (by omega)

/-- With fuel `node_count g + 1`, the fuel-indexed search starting from an
empty path always finishes and agrees with `depth_first_search`. -/
theorem depth_first_searchF_run (g : Adj α) (s e : α) :
    depth_first_searchF g (node_count g + 1) s e []
      = some (depth_first_search g s e []) := by
  apply depth_first_searchF_complete
  · exact List.not_mem_nil s
  · have hfilter : (keys g).filter (fun k => decide (k ∉ ([] : List α))) = keys g := by
      apply List.filter_eq_self.mpr
      intro a _
      simp
    rw [hfilter]
    simp [keys, node_count]

/-- Read off a concrete value of `depth_first_search` from a kernel-computable
run of the fuel-indexed search. -/
theorem depth_first_search_eval (g : Adj α) (s e : α) (r : Option (List α))
    (h : depth_first_searchF g (node_count g + 1) s e [] = some r) :
    depth_first_search g s e [] = r := by
  have h2 := depth_first_searchF_run g s e
  rw [h] at h2
  exact (Option.some.inj h2).symm

/-- The symmetry invariant of `UndirectedGraph`: two distinct nodes occur in
each other's adjacency lists with the same multiplicity. -/
def sym (g : Adj α) : Prop :=
  ∀ a b : α, a ≠ b → (getAdj g a).count b = (getAdj g b).count a

theorem getAdj_appendAdj_same (g : Adj α) (n x : α) :
    getAdj (appendAdj g n x) n = getAdj g n ++ [x] := by
  induction g with
  | nil => simp [appendAdj, getAdj]
  | cons p t ih =>
      obtain ⟨k, v⟩ := p
      by_cases hk : k = n
      · simp [appendAdj, getAdj, hk]
      · simp [appendAdj, getAdj, hk, ih]

theorem getAdj_appendAdj_other (g : Adj α) (n x m : α) (h : m ≠ n) :
    getAdj (appendAdj g n x) m = getAdj g m := by
  induction g with
  | nil => simp [appendAdj, getAdj, Ne.symm h]
  | cons p t ih =>
      obtain ⟨k, v⟩ := p
      by_cases hk : k = n
      · subst hk
        have hkm : ¬k = m := fun hh => h hh.symm
        simp [appendAdj, getAdj, hkm]
      · by_cases hkm : k = m
        · simp [appendAdj, getAdj, hk, hkm, h]
        · simp [appendAdj, getAdj, hk, hkm, ih]

theorem getAdj_eq_nil_of_not_hasKey (g : Adj α) (n : α) (h : hasKey g n = false) :
    getAdj g n = [] := by
  induction g with
  | nil => rfl
  | cons p t ih =>
      obtain ⟨k, v⟩ := p
      simp only [hasKey, Bool.or_eq_false_iff, decide_eq_false_iff_not] at h
      simp [getAdj, h.1, ih h.2]

theorem getAdj_append_nil (g : Adj α) (n m : α) (h : hasKey g n = false) :
    getAdj (g ++ [(n, [])]) m = getAdj g m := by
  induction g with
  | nil =>
      by_cases hnm : n = m <;> simp [getAdj, hnm]
  | cons p t ih =>
      obtain ⟨k, v⟩ := p
      simp only [hasKey, Bool.or_eq_false_iff, decide_eq_false_iff_not] at h
      by_cases hkm : k = m
      · simp [getAdj, hkm]
      · simp [getAdj, hkm, ih h.2]

theorem getAdj_add_node (g : Adj α) (n m : α) :
    getAdj (add_node g n) m = getAdj g m := by
  by_cases h : hasKey g n = true
  · simp [add_node, h]
  · have h' : hasKey g n = false := by simpa using h
    rw [add_node, if_neg (by simp [h'])]
    exact getAdj_append_nil g n m h'

theorem hasKey_append (g1 g2 : Adj α) (n : α) :
    hasKey (g1 ++ g2) n = (hasKey g1 n || hasKey g2 n) := by
  induction g1 with
  | nil => simp [hasKey]
  | cons p t ih =>
      obtain ⟨k, v⟩ := p
      simp [hasKey, ih, Bool.or_assoc]

theorem hasKey_add_node_self (g : Adj α) (n : α) :
    hasKey (add_node g n) n = true := by
  by_cases h : hasKey g n = true
  · simp [add_node, h]
  · rw [add_node, if_neg (by simpa using h), hasKey_append]
    simp [hasKey]

theorem hasKey_appendAdj_of (g : Adj α) (n x m : α) (h : hasKey g m = true) :
    hasKey (appendAdj g n x) m = true := by
  induction g with
  | nil => simp [hasKey] at h
  | cons p t ih =>
      obtain ⟨k, v⟩ := p
      simp only [hasKey, Bool.or_eq_true, decide_eq_true_eq] at h
      by_cases hk : k = n
      · subst hk
        simp only [appendAdj, if_pos rfl, hasKey]
        rcases h with h | h
        · simp [h]
        · simp [h]
      · simp only [appendAdj, if_neg hk, hasKey]
        rcases h with h | h
        · simp [h]
        · simp [ih h]

theorem count_single (x y : α) : List.count y [x] = if x = y then 1 else 0 := by
  by_cases h : x = y <;> simp [List.count_singleton', h]

theorem adj_after_double_append (g : Adj α) (u v : α) (huv : u ≠ v) (z : α) :
    getAdj (appendAdj (appendAdj g u v) v u) z
      = getAdj g z ++ (if z = u then [v] else if z = v then [u] else []) := by
  by_cases hzu : z = u
  · subst hzu
    rw [getAdj_appendAdj_other _ _ _ _ huv, getAdj_appendAdj_same]
    simp
  · by_cases hzv : z = v
    · subst hzv
      rw [getAdj_appendAdj_same, getAdj_appendAdj_other _ _ _ _ (Ne.symm huv)]
      simp [Ne.symm huv]
    · rw [getAdj_appendAdj_other _ _ _ _ hzv, getAdj_appendAdj_other _ _ _ _ hzu]
      simp [hzu, hzv]

theorem count_extra (u v a b : α) (huv : u ≠ v) (hab : a ≠ b) :
    List.count b (if a = u then [v] else if a = v then [u] else [])
      = List.count a (if b = u then [v] else if b = v then [u] else []) := by
  by_cases hau : a = u <;> by_cases hav : a = v <;>
    by_cases hbu : b = u <;> by_cases hbv : b = v <;>
      simp_all [count_single]

theorem sym_appendAdj_pair (g : Adj α) (u v : α) (huv : u ≠ v) (h : sym g) :
    sym (appendAdj (appendAdj g u v) v u) := by
  intro a b hab
  rw [adj_after_double_append g u v huv a, adj_after_double_append g u v huv b,
    List.count_append, List.count_append, h a b hab,
    count_extra u v a b huv hab]

theorem sym_add_edge [LinearOrder α] (g : Adj α) (e : α × α) (h : sym g) :
    sym (UndirectedGraph.add_edge g e) := by
  obtain ⟨a, b⟩ := e
  by_cases hab : a = b
  · rw [UndirectedGraph.add_edge, if_pos hab]
    intro x y hxy
    by_cases hxa : x = a
    · subst hxa
      rw [getAdj_appendAdj_same, getAdj_appendAdj_other _ _ _ _ (Ne.symm hxy),
        List.count_append, count_single, if_neg hxy]
      simpa using h x y hxy
    · by_cases hya : y = a
      · subst hya
        rw [getAdj_appendAdj_same, getAdj_appendAdj_other _ _ _ _ hxa,
          List.count_append, count_single, if_neg (Ne.symm hxy)]
        simpa using h x y hxy
      · rw [getAdj_appendAdj_other _ _ _ _ hxa, getAdj_appendAdj_other _ _ _ _ hya]
        exact h x y hxy
  · rw [UndirectedGraph.add_edge, if_neg hab]
    have hmm : min a b ≠ max a b := by
      rcases le_total a b with hle | hle
      · rw [min_eq_left hle, max_eq_right hle]; exact hab
      · rw [min_eq_right hle, max_eq_left hle]; exact Ne.symm hab
    exact sym_appendAdj_pair g (min a b) (max a b) hmm h

theorem sym_add_node (g : Adj α) (n : α) (h : sym g) : sym (add_node g n) := by
  intro a b hab
  rw [getAdj_add_node, getAdj_add_node]
  exact h a b hab

theorem sym_nil : sym ([] : Adj α) := fun _ _ _ => rfl

theorem sym_foldl [LinearOrder α] (es : List (α × α)) :
    ∀ g : Adj α, sym g → sym (es.foldl UndirectedGraph.add_edge g) := by
  induction es with
  | nil => intro g h; exact h
  | cons e t ih => intro g h; exact ih _ (sym_add_edge g e h)

/-- The docstring example graph:
`UndirectedGraph([('a', 'b'), ('a', 'c'), ('c', 'c')])`. -/
def exampleGraph : Adj Char :=
  UndirectedGraph.ofEdges [('a', 'b'), ('a', 'c'), ('c', 'c')]

/-- The spec scenario digraph: `DirectedGraph([('a', 'b')])`. -/
def exampleDigraph : Adj Char := DirectedGraph.ofEdges [('a', 'b')]

theorem exampleGraph_dfs_bc :
    depth_first_search exampleGraph 'b' 'c' [] = some ['b', 'a', 'c'] :=
  depth_first_search_eval _ _ _ _ (by decide)

theorem exampleGraph_dfs_ab :
    depth_first_search exampleGraph 'a' 'b' [] = some ['a', 'b'] :=
  depth_first_search_eval _ _ _ _ (by decide)

theorem exampleGraph_dfs_ac :
    depth_first_search exampleGraph 'a' 'c' [] = none :=
  depth_first_search_eval _ _ _ _ (by decide)

theorem exampleGraph_distance_ab : distance exampleGraph 'a' 'b' = 1 := by
  unfold distance
  rw [exampleGraph_dfs_ab]
  decide

theorem exampleGraph_distance_ac : distance exampleGraph 'a' 'c' = -1 := by
  unfold distance
  rw [exampleGraph_dfs_ac]

theorem exampleGraph_distance_bc : distance exampleGraph 'b' 'c' = 2 := by
  unfold distance
  rw [exampleGraph_dfs_bc]
  decide

theorem exampleGraph_diameter : diameter exampleGraph = some 2 := by
  have hc : combinations2 (keys exampleGraph)
      = [('a', 'b'), ('a', 'c'), ('b', 'c')] := by decide
  unfold diameter
  rw [hc]
  show ([distance exampleGraph 'a' 'b', distance exampleGraph 'a' 'c',
    distance exampleGraph 'b' 'c'].max?) = some 2
  rw [exampleGraph_distance_ab, exampleGraph_distance_ac, exampleGraph_distance_bc]
  decide

theorem exampleDigraph_dfs_ba :
    depth_first_search exampleDigraph 'b' 'a' [] = none :=
  depth_first_search_eval _ _ _ _ (by decide)

theorem exampleDigraph_distance_ba : distance exampleDigraph 'b' 'a' = -1 := by
  unfold distance
  rw [exampleDigraph_dfs_ba]

/-- Claim C1: on `UndirectedGraph([('a','b'), ('a','c'), ('c','c')])`,
`node_count() == 3`, `node_degree('c') == 3`,
`depth_first_search('b','c') == ['b','a','c']` (the first path found in
adjacency-list order, without backtracking), `distance('a','b') == 1` and
`diameter() == 2`. -/
theorem claim_C1 :
    node_count exampleGraph = 3 ∧
    node_degree exampleGraph 'c' = 3 ∧
    depth_first_search exampleGraph 'b' 'c' [] = some ['b', 'a', 'c'] ∧
    distance exampleGraph 'a' 'b' = 1 ∧
    diameter exampleGraph = some 2 :=
  ⟨by decide, by decide, exampleGraph_dfs_bc, exampleGraph_distance_ab,
    exampleGraph_diameter⟩

/-- Claim C2 counterexample: the claim asserts the no-path signal and
`distance == -1` for an absent start node even when `end == start`, but
`depth_first_search` tests `start_node == end_node` before the membership
test, so on the empty graph `depth_first_search('a','a')` returns the path
`['a']` and `distance('a','a')` returns `0`, not `-1`. -/
theorem claim_C2_counterexample :
    hasKey ([] : Adj Char) 'a' = false ∧
    depth_first_search ([] : Adj Char) 'a' 'a' [] = some ['a'] ∧
    distance ([] : Adj Char) 'a' 'a' = 0 := by
  have hd : depth_first_search ([] : Adj Char) 'a' 'a' [] = some ['a'] :=
    depth_first_search_eval _ _ _ _ (by decide)
  refine ⟨rfl, hd, ?_⟩
  unfold distance
  rw [hd]
  decide

/-- Claim C2 as amended: if `start` is not a key of the adjacency mapping
and `end ≠ start`, `depth_first_search` returns the no-path signal and
`distance` returns `-1`; when `end == start` the search instead returns the
one-node path `[start]` and the distance is `0`, whether or not `start` is
in the graph. -/
theorem claim_C2 (g : Adj α) (s e : α) (hs : hasKey g s = false) :
    (s ≠ e → depth_first_search g s e [] = none ∧ distance g s e = -1) ∧
    (depth_first_search g s s [] = some [s] ∧ distance g s s = 0) := by
  constructor
  · intro hne
    have hd := depth_first_search_absent g s e [] hne hs
    refine ⟨hd, ?_⟩
    unfold distance
    rw [hd]
  · have hd : depth_first_search g s s [] = some [s] :=
      depth_first_search_stop g s s [] rfl
    refine ⟨hd, ?_⟩
    unfold distance
    rw [hd]
    simp

theorem claim_C2_witness :
    depth_first_search ([('b', ['b'])] : Adj Char) 'a' 'c' [] = none ∧
    distance ([('b', ['b'])] : Adj Char) 'a' 'c' = -1 :=
  (claim_C2 ([('b', ['b'])] : Adj Char) 'a' 'c' (by decide)).1 (by decide)

/-- Claim C9: `depth_first_search` terminates on every finite graph: the
fuel-indexed recursion never exhausts `node_count g + 1` levels of fuel
(each recursive call appends a fresh node to the path), and then computes
exactly the value of the recursive function. -/
theorem claim_C9 (g : Adj α) (s e : α) (fuel : Nat)
    (h : node_count g + 1 ≤ fuel) :
    depth_first_searchF g fuel s e [] = some (depth_first_search g s e []) := by
  apply depth_first_searchF_complete
  · exact List.not_mem_nil s
  · have hfilter : (keys g).filter (fun k => decide (k ∉ ([] : List α))) = keys g := by
      apply List.filter_eq_self.mpr
      intro a _
      simp
    rw [hfilter]
    have hlen : (keys g).length = node_count g := by simp [keys, node_count]
    omega

theorem claim_C9_witness :
    depth_first_searchF exampleGraph 10 'b' 'c' []
      = some (depth_first_search exampleGraph 'b' 'c' []) :=
  claim_C9 exampleGraph 'b' 'c' 10 (by decide)

/-- Claim C10: `UndirectedGraph.add_edge` is insensitive to the order of
the endpoints: the pair is collapsed to a set before insertion, and the
resulting mapping (keys, key order and adjacency lists) is identical. -/
theorem claim_C10 [LinearOrder α] (g : Adj α) (A B : α) :
    UndirectedGraph.add_edge g (A, B) = UndirectedGraph.add_edge g (B, A) := by
  by_cases h : A = B
  · subst h; rfl
  · rw [UndirectedGraph.add_edge, UndirectedGraph.add_edge,
      if_neg h, if_neg (Ne.symm h), min_comm B A, max_comm B A]

/-- Claim C3: the undirected symmetry invariant is preserved by
construction from an edge list, by `add_edge` and by `add_node` (the
queries do not modify the mapping, `node_degree`'s auto-vivification
included, which is `add_node`'s effect); and a self-loop call on `x`
contributes exactly one occurrence of `x` to its own adjacency list. -/
theorem claim_C3 [LinearOrder α] (g : Adj α) (e : α × α) (n x : α)
    (es : List (α × α)) (h : sym g) :
    sym (UndirectedGraph.add_edge g e) ∧
    sym (add_node g n) ∧
    sym (UndirectedGraph.ofEdges es) ∧
    (getAdj (UndirectedGraph.add_edge g (x, x)) x).count x
      = (getAdj g x).count x + 1 := by
  refine ⟨sym_add_edge g e h, sym_add_node g n h, sym_foldl es [] sym_nil, ?_⟩
  have hsl : UndirectedGraph.add_edge g (x, x) = appendAdj g x x := by
    rw [UndirectedGraph.add_edge, if_pos rfl]
  rw [hsl, getAdj_appendAdj_same, List.count_append, count_single, if_pos rfl]

theorem claim_C3_witness :
    sym (UndirectedGraph.add_edge ([] : Adj Char) ('a', 'b')) ∧
    sym (add_node ([] : Adj Char) 'c') ∧
    sym (UndirectedGraph.ofEdges [('a', 'b')] : Adj Char) ∧
    (getAdj (UndirectedGraph.add_edge ([] : Adj Char) ('d', 'd')) 'd').count 'd'
      = (getAdj ([] : Adj Char) 'd').count 'd' + 1 :=
  claim_C3 ([] : Adj Char) ('a', 'b') 'c' 'd' [('a', 'b')] (fun _ _ _ => rfl)

/-- Claim C4: on an `UndirectedGraph`, `add_edge((x, x))` lengthens `x`'s
adjacency list by exactly one entry and raises `node_degree(x)` by exactly
two (the self-loop entry is counted twice). -/
theorem claim_C4 [LinearOrder α] (g : Adj α) (x : α) :
    (getAdj (UndirectedGraph.add_edge g (x, x)) x).length
      = (getAdj g x).length + 1 ∧
    node_degree (UndirectedGraph.add_edge g (x, x)) x = node_degree g x + 2 := by
  have hsl : UndirectedGraph.add_edge g (x, x) = appendAdj g x x := by
    rw [UndirectedGraph.add_edge, if_pos rfl]
  constructor
  · rw [hsl, getAdj_appendAdj_same]
    simp
  · rw [node_degree, node_degree, hsl, getAdj_appendAdj_same,
      List.count_append, count_single, if_pos rfl, List.length_append]
    simp
    omega

/-- Claim C5: `DirectedGraph.add_edge((A, B))` with `A ≠ B` appends `B` to
`A`'s adjacency list, registers `B` as a node, and leaves `B`'s adjacency
list unchanged; `DirectedGraph([('a','b')])` has nodes `'a'` and `'b'`,
`'b'` has an empty adjacency list, and `distance('b','a') == -1`. -/
theorem claim_C5 (g : Adj α) (A B : α) (h : A ≠ B) :
    getAdj (DirectedGraph.add_edge g (A, B)) A = getAdj g A ++ [B] ∧
    hasKey (DirectedGraph.add_edge g (A, B)) B = true ∧
    B ∈ nodes (DirectedGraph.add_edge g (A, B)) ∧
    getAdj (DirectedGraph.add_edge g (A, B)) B = getAdj g B ∧
    ('a' ∈ nodes exampleDigraph ∧ 'b' ∈ nodes exampleDigraph ∧
      getAdj exampleDigraph 'b' = [] ∧ distance exampleDigraph 'b' 'a' = -1) := by
  have hk : hasKey (DirectedGraph.add_edge g (A, B)) B = true :=
    hasKey_appendAdj_of _ A B B (hasKey_add_node_self g B)
  refine ⟨?_, hk, ?_, ?_, ?_, ?_, ?_, ?_⟩
  · show getAdj (appendAdj (add_node g B) A B) A = getAdj g A ++ [B]
    rw [getAdj_appendAdj_same, getAdj_add_node]
  · exact (hasKey_iff_mem_keys _ B).mp hk
  · show getAdj (appendAdj (add_node g B) A B) B = getAdj g B
    rw [getAdj_appendAdj_other _ _ _ _ (Ne.symm h), getAdj_add_node]
  · decide
  · decide
  · decide
  · exact exampleDigraph_distance_ba

theorem claim_C5_witness :
    getAdj (DirectedGraph.add_edge ([] : Adj Char) ('a', 'b')) 'a'
        = getAdj ([] : Adj Char) 'a' ++ ['b'] ∧
    hasKey (DirectedGraph.add_edge ([] : Adj Char) ('a', 'b')) 'b' = true ∧
    getAdj (DirectedGraph.add_edge ([] : Adj Char) ('a', 'b')) 'b'
        = getAdj ([] : Adj Char) 'b' :=
  ⟨(claim_C5 ([] : Adj Char) 'a' 'b' (by decide)).1,
   (claim_C5 ([] : Adj Char) 'a' 'b' (by decide)).2.1,
   (claim_C5 ([] : Adj Char) 'a' 'b' (by decide)).2.2.2.1⟩

/-- Claim C6: `distance` is the edge count (length minus one) of the node
sequence found by `depth_first_search`, `-1` on the no-path signal; in
particular `distance(X, X) == 0` for a node present in the graph. -/
theorem claim_C6 (g : Adj α) (s e x : α) :
    (depth_first_search g s e [] = none → distance g s e = -1) ∧
    (∀ p, depth_first_search g s e [] = some p →
      distance g s e = (p.length : Int) - 1) ∧
    (hasKey g x = true → distance g x x = 0) := by
  refine ⟨?_, ?_, ?_⟩
  · intro hd
    unfold distance
    rw [hd]
  · intro p hd
    unfold distance
    rw [hd]
  · intro _
    have hd : depth_first_search g x x [] = some [x] :=
      depth_first_search_stop g x x [] rfl
    unfold distance
    rw [hd]
    simp

theorem claim_C6_witness :
    distance exampleGraph 'a' 'c' = -1 ∧
    distance exampleGraph 'b' 'c' = 2 ∧
    distance exampleGraph 'a' 'a' = 0 := by
  refine ⟨(claim_C6 exampleGraph 'a' 'c' 'a').1 exampleGraph_dfs_ac, ?_,
    (claim_C6 exampleGraph 'a' 'a' 'a').2.2 (by decide)⟩
  have h := (claim_C6 exampleGraph 'b' 'c' 'a').2.1 ['b', 'a', 'c']
    exampleGraph_dfs_bc
  rw [h]
  decide

theorem nat_min?_spec {l : List Nat} {d : Nat} (h : l.min? = some d) :
    d ∈ l ∧ ∀ b ∈ l, d ≤ b :=
  (List.min?_eq_some_iff (fun a => le_refl a) min_choice
    (fun _ _ _ => le_min_iff)).mp h

theorem nat_max?_spec {l : List Nat} {d : Nat} (h : l.max? = some d) :
    d ∈ l ∧ ∀ b ∈ l, b ≤ d :=
  (List.max?_eq_some_iff (fun a => le_refl a) max_choice
    (fun _ _ _ => max_le_iff)).mp h

/-- Claim C7: `delta`/`min_degree` return the minimum and `Delta`/
`max_degree` the maximum of `node_degree` over all nodes, and on a graph
with zero nodes they fail (the `ValueError` of an empty `min`/`max`,
modelled as `none`) instead of returning a value. -/
theorem claim_C7 (g : Adj α) :
    min_degree g = delta g ∧ max_degree g = Delta g ∧
    (g = [] → delta g = none ∧ Delta g = none) ∧
    (g ≠ [] → (delta g).isSome ∧ (Delta g).isSome) ∧
    (∀ d, delta g = some d →
      (∃ y ∈ keys g, node_degree g y = d) ∧
        ∀ y ∈ keys g, d ≤ node_degree g y) ∧
    (∀ d, Delta g = some d →
      (∃ y ∈ keys g, node_degree g y = d) ∧
        ∀ y ∈ keys g, node_degree g y ≤ d) := by
  refine ⟨rfl, rfl, ?_, ?_, ?_, ?_⟩
  · rintro rfl
    exact ⟨rfl, rfl⟩
  · intro hne
    cases g with
    | nil => exact absurd rfl hne
    | cons p t => exact ⟨rfl, rfl⟩
  · intro d hd
    unfold delta at hd
    obtain ⟨hmem, hle⟩ := nat_min?_spec hd
    constructor
    · obtain ⟨y, hy, hyd⟩ := List.mem_map.mp hmem
      exact ⟨y, hy, hyd⟩
    · intro y hy
      exact hle _ (List.mem_map_of_mem _ hy)
  · intro d hd
    unfold Delta at hd
    obtain ⟨hmem, hle⟩ := nat_max?_spec hd
    constructor
    · obtain ⟨y, hy, hyd⟩ := List.mem_map.mp hmem
      exact ⟨y, hy, hyd⟩
    · intro y hy
      exact hle _ (List.mem_map_of_mem _ hy)

theorem claim_C7_witness :
    ((∃ y ∈ keys exampleGraph, node_degree exampleGraph y = 1) ∧
      ∀ y ∈ keys exampleGraph, 1 ≤ node_degree exampleGraph y) ∧
    (delta ([] : Adj Char) = none ∧ Delta ([] : Adj Char) = none) ∧
    ((delta exampleGraph).isSome ∧ (Delta exampleGraph).isSome) :=
  ⟨(claim_C7 exampleGraph).2.2.2.2.1 1 (by decide),
   (claim_C7 ([] : Adj Char)).2.2.1 rfl,
   (claim_C7 exampleGraph).2.2.2.1 (by decide)⟩

theorem getAdj_mem_of_hasKey (g : Adj α) (x : α) (h : hasKey g x = true) :
    (x, getAdj g x) ∈ g := by
  induction g with
  | nil => simp [hasKey] at h
  | cons p t ih =>
      obtain ⟨k, v⟩ := p
      simp only [hasKey, Bool.or_eq_true, decide_eq_true_eq] at h
      by_cases hk : k = x
      · subst hk
        simp [getAdj]
      · rcases h with h | h
        · exact absurd h hk
        · simp only [getAdj, if_neg hk]
          exact List.mem_cons_of_mem _ (ih h)

theorem mem_keys_of_mem_pair (g : Adj α) (x : α) (v : List α)
    (h : (x, v) ∈ g) : x ∈ keys g :=
  List.mem_map_of_mem Prod.fst h

theorem getAdj_of_mem_nodup (g : Adj α) (x : α) (v : List α)
    (hnd : (keys g).Nodup) (h : (x, v) ∈ g) : getAdj g x = v := by
  induction g with
  | nil => cases h
  | cons p t ih =>
      obtain ⟨k, w⟩ := p
      rw [keys, List.map_cons, List.nodup_cons] at hnd
      rcases List.mem_cons.mp h with h | h
      · have hx : x = k := congrArg Prod.fst h
        have hv : v = w := congrArg Prod.snd h
        simp only [getAdj]
        rw [if_pos hx.symm]
        exact hv.symm
      · have hkx : ¬k = x := by
          intro hkx
          exact hnd.1 (hkx ▸ mem_keys_of_mem_pair t x v h)
        simp only [getAdj, if_neg hkx]
        exact ih hnd.2 h

theorem appearsAsTarget_eq_false_iff (g : Adj α) (n : α) :
    appearsAsTarget g n = false ↔ ∀ q ∈ g, n ∉ q.2 := by
  simp [appearsAsTarget]

/-- Claim C8: `isolated_nodes` returns exactly the nodes with an empty
adjacency list that occur in no adjacency list, in insertion order (a
sublist of the key sequence); a node with a self-loop is never returned;
`is_connected` is true iff this list is empty. -/
theorem claim_C8 (g : Adj α) (hnd : (keys g).Nodup) :
    (∀ x, x ∈ isolated_nodes g ↔
      x ∈ keys g ∧ getAdj g x = [] ∧ ∀ q ∈ g, x ∉ q.2) ∧
    (isolated_nodes g).Sublist (keys g) ∧
    (∀ x, x ∈ getAdj g x → x ∉ isolated_nodes g) ∧
    (is_connected g = true ↔ isolated_nodes g = []) := by
  have hiff : ∀ x, x ∈ isolated_nodes g ↔
      x ∈ keys g ∧ getAdj g x = [] ∧ ∀ q ∈ g, x ∉ q.2 := by
    intro x
    constructor
    · intro hx
      obtain ⟨p, hp, hpx⟩ := List.mem_map.mp hx
      obtain ⟨hpg, hpred⟩ := List.mem_filter.mp hp
      simp only [Bool.and_eq_true, decide_eq_true_eq, Bool.not_eq_true'] at hpred
      have hadj : getAdj g p.1 = p.2 :=
        getAdj_of_mem_nodup g p.1 p.2 hnd (by exact hpg)
      subst hpx
      refine ⟨List.mem_map_of_mem Prod.fst hpg, ?_, ?_⟩
      · rw [hadj]
        exact hpred.1
      · exact (appearsAsTarget_eq_false_iff g p.1).mp hpred.2
    · rintro ⟨hk, hadj, hno⟩
      have hpair : (x, getAdj g x) ∈ g :=
        getAdj_mem_of_hasKey g x ((hasKey_iff_mem_keys g x).mpr hk)
      rw [hadj] at hpair
      have hpred : (fun p : α × List α =>
          decide (p.2 = []) && !appearsAsTarget g p.1) (x, []) = true := by
        simp only [Bool.and_eq_true, decide_eq_true_eq, Bool.not_eq_true']
        exact ⟨by simp, (appearsAsTarget_eq_false_iff g x).mpr hno⟩
      exact List.mem_map_of_mem Prod.fst (List.mem_filter.mpr ⟨hpair, hpred⟩)
  refine ⟨hiff, ?_, ?_, ?_⟩
  · exact List.Sublist.map Prod.fst (List.filter_sublist g)
  · intro x hloop hx
    have h2 := ((hiff x).mp hx).2.1
    rw [h2] at hloop
    cases hloop
  · simp [is_connected, List.length_eq_zero]

theorem claim_C8_witness :
    'a' ∉ isolated_nodes ([('a', ['a']), ('b', [])] : Adj Char) ∧
    (is_connected ([('a', ['a']), ('b', [])] : Adj Char) = true ↔
      isolated_nodes ([('a', ['a']), ('b', [])] : Adj Char) = []) :=
  ⟨(claim_C8 ([('a', ['a']), ('b', [])] : Adj Char) (by decide)).2.2.1 'a'
      (by decide),
   (claim_C8 ([('a', ['a']), ('b', [])] : Adj Char) (by decide)).2.2.2⟩

end Graphs
